import Mathlib

/-!
# Verification of the Session Orchestration & Streaming Event Multiplexer

A shallow embedding of the conversational-agent orchestration layer:
the bounded per-session message-history cache (`addMessageToCache`), the
per-exchange streaming event state machine of `sendMessage` (delta
accumulation, tool-call correlation, completion detection, fallback
synthetic streaming, timeout race, cleanup), the user-input request
fallback of `createSession`/`getOrCreateSession`, and the session
registry's `deleteSession`.

Pure functions from the source become Lean functions; the
callback-driven body of `sendMessage` becomes an explicit state machine
(`ExchangeState`, `step`) driven by the runtime's session events plus
the two timers (the 5-minute message timeout and the 100 ms grace delay
that `finalize` schedules before detaching listeners).  Caller-visible
callbacks are recorded as a `Callback` trace.
-/

/-- One cached conversation turn: `{ role, content }` as pushed by
`addMessageToCache`. -/
structure CacheEntry where
  role : String
  content : String
deriving DecidableEq, Repr

/-- `const MAX_MESSAGES_PER_SESSION = 100`. -/
@[simp] def MAX_MESSAGES_PER_SESSION : Nat := 100

/-- `addMessageToCache(sessionId, role, content)` for a single session's
list: push the new entry, then if the length exceeds
`MAX_MESSAGES_PER_SESSION` remove the oldest `excess` entries in one
`splice(0, excess)`. -/
def addMessageToCache (msgs : List CacheEntry) (role content : String) :
    List CacheEntry :=
  if (msgs ++ [(⟨role, content⟩ : CacheEntry)]).length > MAX_MESSAGES_PER_SESSION then
    (msgs ++ [(⟨role, content⟩ : CacheEntry)]).drop
      ((msgs ++ [(⟨role, content⟩ : CacheEntry)]).length - MAX_MESSAGES_PER_SESSION)
  else
    msgs ++ [(⟨role, content⟩ : CacheEntry)]

theorem addMessageToCache_length_le (msgs : List CacheEntry)
    (role content : String) :
    (addMessageToCache msgs role content).length ≤ MAX_MESSAGES_PER_SESSION := by
  unfold addMessageToCache
  split <;> rename_i h <;>
    simp only [List.length_drop, List.length_append, List.length_cons,
      List.length_nil, MAX_MESSAGES_PER_SESSION] at * <;> omega

theorem addMessageToCache_eq_append (msgs : List CacheEntry)
    (role content : String) (h : msgs.length + 1 ≤ MAX_MESSAGES_PER_SESSION) :
    addMessageToCache msgs role content = msgs ++ [⟨role, content⟩] := by
  unfold addMessageToCache
  split
  · rename_i hgt
    simp only [List.length_append, List.length_cons, List.length_nil,
      MAX_MESSAGES_PER_SESSION] at hgt h
    omega
  · rfl

theorem addMessageToCache_eq_drop (msgs : List CacheEntry)
    (role content : String) (h : msgs.length + 1 > MAX_MESSAGES_PER_SESSION) :
    addMessageToCache msgs role content =
      (msgs ++ [(⟨role, content⟩ : CacheEntry)]).drop
        (msgs.length + 1 - MAX_MESSAGES_PER_SESSION) := by
  unfold addMessageToCache
  split
  · simp
  · rename_i hle
    simp only [List.length_append, List.length_cons, List.length_nil,
      MAX_MESSAGES_PER_SESSION] at hle h
    omega

/-- The just-pushed entry always survives the trim: the drop removes
entries from the front only, and removes at most `len + 1 - 100 ≤ len`
of them. -/
theorem addMessageToCache_concat (msgs : List CacheEntry)
    (role content : String) :
    ∃ l, addMessageToCache msgs role content =
      l ++ [(⟨role, content⟩ : CacheEntry)] := by
  by_cases h : msgs.length + 1 ≤ MAX_MESSAGES_PER_SESSION
  · exact ⟨msgs, addMessageToCache_eq_append msgs role content h⟩
  · refine ⟨msgs.drop (msgs.length + 1 - MAX_MESSAGES_PER_SESSION), ?_⟩
    rw [addMessageToCache_eq_drop msgs role content (by omega)]
    rw [List.drop_append_of_le_length]
    simp only [MAX_MESSAGES_PER_SESSION] at *
    omega

theorem mem_addMessageToCache_self (msgs : List CacheEntry)
    (role content : String) :
    (⟨role, content⟩ : CacheEntry) ∈ addMessageToCache msgs role content := by
  obtain ⟨l, hl⟩ := addMessageToCache_concat msgs role content
  rw [hl]
  simp

/-- An entry sitting in last position survives a subsequent append:
`addMessageToCache` drops only from the front and never reaches the
second-to-last position. -/
theorem mem_addMessageToCache_of_last (l : List CacheEntry)
    (u : CacheEntry) (role content : String) :
    u ∈ addMessageToCache (l ++ [u]) role content := by
  by_cases h : (l ++ [u]).length + 1 ≤ MAX_MESSAGES_PER_SESSION
  · rw [addMessageToCache_eq_append _ _ _ h]
    simp
  · rw [addMessageToCache_eq_drop _ _ _ (by omega)]
    have hlen : (l ++ [u]).length + 1 - MAX_MESSAGES_PER_SESSION ≤ l.length := by
      simp only [List.length_append, List.length_cons, List.length_nil,
        MAX_MESSAGES_PER_SESSION]
      omega
    rw [List.append_assoc, List.drop_append_of_le_length hlen]
    simp

/-- JavaScript `String.prototype.trim()`: strip whitespace from both
ends (`content.trim()` in `finalize`). -/
def jsTrim (s : String) : String :=
  ⟨((s.data.dropWhile Char.isWhitespace).reverse.dropWhile
      Char.isWhitespace).reverse⟩

/-- The chunk size of the synthetic fallback stream (`const chunkSize = 24`). -/
@[simp] def FALLBACK_CHUNK_SIZE : Nat := 24

/-- Fuel-driven chunk splitter mirroring the `for (let i = 0; i <
content.length; i += chunkSize)` loop of `streamFallback`: each
iteration emits `content.slice(i, i + chunkSize)`.  The fuel is an
upper bound on the number of remaining characters, so the recursion is
structural (hence kernel-evaluable). -/
def chunksFuel : Nat → List Char → List (List Char)
  | 0, _ => []
  | _, [] => []
  | fuel + 1, c :: cs =>
      (c :: cs).take FALLBACK_CHUNK_SIZE ::
        chunksFuel fuel ((c :: cs).drop FALLBACK_CHUNK_SIZE)

theorem chunksFuel_nil (fuel : Nat) : chunksFuel fuel [] = [] := by
  cases fuel <;> rfl

/-- The successive `onDelta` chunks that `streamFallback(content)` emits. -/
def streamChunks (content : String) : List String :=
  (chunksFuel content.data.length content.data).map fun l => ⟨l⟩

theorem chunksFuel_flatten (fuel : Nat) (l : List Char)
    (h : l.length ≤ fuel) : (chunksFuel fuel l).flatten = l := by
  induction fuel generalizing l with
  | zero =>
      cases l with
      | nil => rfl
      | cons c cs => simp at h
  | succ fuel ih =>
      cases l with
      | nil => rfl
      | cons c cs =>
          simp only [chunksFuel, List.flatten_cons]
          rw [ih ((c :: cs).drop FALLBACK_CHUNK_SIZE)
            (by simp only [List.length_drop, List.length_cons,
                  FALLBACK_CHUNK_SIZE] at *; omega)]
          exact List.take_append_drop _ _

theorem chunksFuel_length (fuel : Nat) (l : List Char)
    (h : l.length ≤ fuel) :
    (chunksFuel fuel l).length =
      (l.length + (FALLBACK_CHUNK_SIZE - 1)) / FALLBACK_CHUNK_SIZE := by
  induction fuel generalizing l with
  | zero =>
      cases l with
      | nil => simp [chunksFuel]
      | cons c cs => simp at h
  | succ fuel ih =>
      cases l with
      | nil => simp [chunksFuel]
      | cons c cs =>
          simp only [chunksFuel, List.length_cons]
          rw [ih ((c :: cs).drop FALLBACK_CHUNK_SIZE)
            (by simp only [List.length_drop, List.length_cons,
                  FALLBACK_CHUNK_SIZE] at *; omega)]
          simp only [List.length_drop, List.length_cons, FALLBACK_CHUNK_SIZE]
          by_cases hle : cs.length + 1 ≤ 24
          · have h1 : cs.length + 1 - 24 = 0 := by omega
            rw [h1]
            have h2 : (cs.length + 1 + 23) / 24 = 1 := by
              apply Nat.div_eq_of_lt_le <;> omega
            omega
          · have h1 : cs.length + 1 - 24 + 23 = cs.length + 1 + 23 - 24 := by
              omega
            rw [h1]
            have h24 : 0 < 24 := by omega
            have h2 : (cs.length + 1 + 23 - 24 + 24) / 24
                = (cs.length + 1 + 23 - 24) / 24 + 1 := Nat.add_div_right _ h24
            have h3 : cs.length + 1 + 23 - 24 + 24 = cs.length + 1 + 23 := by
              omega
            rw [h3] at h2
            omega

theorem chunksFuel_mem_length (fuel : Nat) (l : List Char)
    (h : l.length ≤ fuel) :
    ∀ ch ∈ chunksFuel fuel l,
      0 < ch.length ∧ ch.length ≤ FALLBACK_CHUNK_SIZE := by
  induction fuel generalizing l with
  | zero =>
      cases l with
      | nil => intro ch hch; simp [chunksFuel] at hch
      | cons c cs => simp at h
  | succ fuel ih =>
      cases l with
      | nil => intro ch hch; simp [chunksFuel] at hch
      | cons c cs =>
          intro ch hch
          simp only [chunksFuel, List.mem_cons] at hch
          rcases hch with hch | hch
          · subst hch
            refine ⟨?_, ?_⟩
            · simp only [List.length_take, List.length_cons,
                FALLBACK_CHUNK_SIZE]
              omega
            · simp [List.length_take]
          · exact ih ((c :: cs).drop FALLBACK_CHUNK_SIZE)
              (by simp only [List.length_drop, List.length_cons,
                    FALLBACK_CHUNK_SIZE] at *; omega) ch hch

/-- Every chunk except possibly the last has length exactly 24. -/
theorem chunksFuel_dropLast_length (fuel : Nat) (l : List Char)
    (h : l.length ≤ fuel) :
    ∀ ch ∈ (chunksFuel fuel l).dropLast, ch.length = FALLBACK_CHUNK_SIZE := by
  induction fuel generalizing l with
  | zero =>
      cases l with
      | nil => intro ch hch; simp [chunksFuel] at hch
      | cons c cs => simp at h
  | succ fuel ih =>
      cases l with
      | nil => intro ch hch; simp [chunksFuel] at hch
      | cons c cs =>
          intro ch hch
          by_cases hrest : (c :: cs).drop FALLBACK_CHUNK_SIZE = []
          · -- a single chunk, whose dropLast is empty
            have hnil : chunksFuel fuel ((c :: cs).drop FALLBACK_CHUNK_SIZE) = [] := by
              rw [hrest]; exact chunksFuel_nil fuel
            rw [chunksFuel, hnil] at hch
            simp at hch
          · have hne : chunksFuel fuel ((c :: cs).drop FALLBACK_CHUNK_SIZE) ≠ [] := by
              cases hfd : (c :: cs).drop FALLBACK_CHUNK_SIZE with
              | nil => exact absurd hfd hrest
              | cons d ds =>
                  cases fuel with
                  | zero =>
                      exfalso
                      have hlen : ((c :: cs).drop FALLBACK_CHUNK_SIZE).length ≤ 0 := by
                        simp only [List.length_drop, List.length_cons,
                          FALLBACK_CHUNK_SIZE] at *
                        omega
                      rw [hfd] at hlen
                      simp at hlen
                  | succ fuel => simp [chunksFuel, hfd]
            simp only [chunksFuel] at hch
            rw [List.dropLast_cons_of_ne_nil hne] at hch
            rcases List.mem_cons.mp hch with hch | hch
            · subst hch
              have hlt : FALLBACK_CHUNK_SIZE < (c :: cs).length := by
                by_contra hcon
                push_neg at hcon
                exact hrest (List.drop_eq_nil_of_le hcon)
              simp only [List.length_take, List.length_cons,
                FALLBACK_CHUNK_SIZE] at *
              omega
            · exact ih ((c :: cs).drop FALLBACK_CHUNK_SIZE)
                (by simp only [List.length_drop, List.length_cons,
                      FALLBACK_CHUNK_SIZE] at *; omega) ch hch

/-! ## The `sendMessage` exchange state machine

The body of `sendMessage` registers eight listeners on the session's
event stream and arms a 5-minute timeout.  We embed one exchange as a
state (`ExchangeState`) and a transition function `step` handling each
incoming occurrence: the eight session events, the 5-minute timeout
timer firing, and the 100 ms grace timer that `finalize` schedules
before running `cleanup`.  The fallback synthetic stream
(`streamFallback`) is modelled as running to completion within the
handling of its triggering `assistant.message` event (no other event
interleaves with the 15 ms inter-chunk delays). -/

/-- The runtime occurrences an exchange reacts to: the session events
subscribed in `sendMessage` plus the two timers. -/
inductive SessionEvent where
  | messageDelta (deltaContent : String)
  | reasoningDelta (deltaContent : String)
  | toolStart (toolCallId toolName : String)
  | toolComplete (toolCallId : String)
  | toolError (toolCallId : String)
  | assistantMessage (content : String) (toolRequests : Option Nat)
  | sessionError (message : String)
  | sessionIdle
  | timeout
  | graceTimer
deriving DecidableEq, Repr

/-- A caller-visible callback invocation recorded in arrival order. -/
inductive Callback where
  | onDelta (content : String)
  | onReasoningDelta (content : String)
  | onToolCall (toolName toolCallId : String)
  | onToolResult (toolName toolCallId : String) (isError : Bool)
  | onComplete (fullContent : String)
  | onError (message : String)
deriving DecidableEq, Repr

/-- The closure state of one `sendMessage` call: the mutable locals
(`fullContent`, `hasDelta`, `completed`, `pendingToolCalls`,
`toolNameByCallId`, `cleanupCalled`, `timeoutHandle`), whether the event
listeners are still attached (`unsubscribers` not yet run), whether
`finalize` has scheduled the deferred `cleanup`, and the session's
message-history cache list. -/
structure ExchangeState where
  fullContent : String
  hasDelta : Bool
  completed : Bool
  pendingToolCalls : Int
  toolNameByCallId : List (String × String)
  cleanupCalled : Bool
  timeoutArmed : Bool
  listenersAttached : Bool
  cleanupScheduled : Bool
  cache : List CacheEntry
deriving Repr

/-- `cleanup()`: once only, clear the timeout and detach every
listener. -/
def cleanup (st : ExchangeState) : ExchangeState :=
  if st.cleanupCalled then st
  else
    { st with
      cleanupCalled := true
      timeoutArmed := false
      listenersAttached := false }

/-- The distinct timeout error `new Error('消息响应超时')`. -/
def TIMEOUT_ERROR : String := "消息响应超时"

/-- The fallback for `session.error` events carrying no message
(`event.data.message || "未知错误"`). -/
def UNKNOWN_ERROR : String := "未知错误"

/-- `finalize(content)`: guarded by the `completed` latch; caches the
assistant turn when the trimmed content is non-empty, invokes
`onComplete(content)` and schedules `cleanup` after a 100 ms grace
delay.  Returns the new state and the emitted callbacks. -/
def finalize (st : ExchangeState) (content : String) :
    ExchangeState × List Callback :=
  if st.completed then (st, [])
  else
    ({ st with
        completed := true
        cache :=
          if 0 < (jsTrim content).length then
            addMessageToCache st.cache "assistant" content
          else st.cache
        cleanupScheduled := true },
      [Callback.onComplete content])

/-- `toolRequests && toolRequests.length > 0` for an
`assistant.message` event payload. -/
def hasToolRequests : Option Nat → Bool
  | some n => decide (0 < n)
  | none => false

/-- One transition of the exchange: dispatch a single occurrence to the
listener (or timer callback) that `sendMessage` registered for it.
Session events are delivered only while the listeners are attached;
each timer fires only while armed/scheduled. -/
def step (st : ExchangeState) (ev : SessionEvent) :
    ExchangeState × List Callback :=
  match ev with
  | .messageDelta d =>
      if st.listenersAttached then
        ({ st with
            hasDelta := if 0 < d.length then true else st.hasDelta
            fullContent := st.fullContent ++ d },
          [Callback.onDelta d])
      else (st, [])
  | .reasoningDelta d =>
      if st.listenersAttached then
        (st, if 0 < d.length then [Callback.onReasoningDelta d] else [])
      else (st, [])
  | .toolStart id name =>
      if st.listenersAttached then
        ({ st with
            pendingToolCalls := st.pendingToolCalls + 1
            toolNameByCallId := (id, name) :: st.toolNameByCallId },
          [Callback.onToolCall name id])
      else (st, [])
  | .toolComplete id =>
      if st.listenersAttached then
        ({ st with pendingToolCalls := max 0 (st.pendingToolCalls - 1) },
          [Callback.onToolResult ((st.toolNameByCallId.lookup id).getD id) id false])
      else (st, [])
  | .toolError id =>
      if st.listenersAttached then
        ({ st with pendingToolCalls := max 0 (st.pendingToolCalls - 1) },
          [Callback.onToolResult ((st.toolNameByCallId.lookup id).getD id) id true])
      else (st, [])
  | .assistantMessage content toolRequests =>
      if st.listenersAttached then
        if hasToolRequests toolRequests ∧ content.length = 0 then
          (st, [])
        else if 0 < st.pendingToolCalls then
          (if 0 < content.length ∧ st.fullContent.length = 0 then
              { st with fullContent := content }
            else st, [])
        else if st.hasDelta = false ∧ 0 < content.length then
          ((finalize { st with fullContent := content } content).1,
            (streamChunks content).map Callback.onDelta ++
              (finalize { st with fullContent := content } content).2)
        else if 0 < content.length ∧ st.fullContent.length = 0 then
          finalize { st with fullContent := content } content
        else if 0 < content.length ∨ 0 < st.fullContent.length then
          finalize st
            (if 0 < st.fullContent.length then st.fullContent else content)
        else (st, [])
      else (st, [])
  | .sessionError msg =>
      if st.listenersAttached then
        (cleanup st,
          [Callback.onError (if 0 < msg.length then msg else UNKNOWN_ERROR)])
      else (st, [])
  | .sessionIdle =>
      if st.listenersAttached then
        if st.completed = false ∧ st.pendingToolCalls = 0 then
          finalize st st.fullContent
        else (st, [])
      else (st, [])
  | .timeout =>
      if st.timeoutArmed then
        if st.completed = false then
          if 0 < st.fullContent.length then
            finalize { st with timeoutArmed := false } st.fullContent
          else
            (cleanup { st with timeoutArmed := false },
              [Callback.onError TIMEOUT_ERROR])
        else ({ st with timeoutArmed := false }, [])
      else (st, [])
  | .graceTimer =>
      if st.cleanupScheduled then
        (cleanup { st with cleanupScheduled := false }, [])
      else (st, [])

/-- The state of an exchange right after `sendMessage` resolved its
session, pushed the user prompt into the cache (line `addMessageToCache(
sessionId, "user", prompt)`), attached the listeners and armed the
timeout. -/
def initState (cache0 : List CacheEntry) (prompt : String) : ExchangeState :=
  { fullContent := ""
    hasDelta := false
    completed := false
    pendingToolCalls := 0
    toolNameByCallId := []
    cleanupCalled := false
    timeoutArmed := true
    listenersAttached := true
    cleanupScheduled := false
    cache := addMessageToCache cache0 "user" prompt }

/-- Drive one exchange through a list of occurrences, concatenating the
emitted callback traces. -/
def runEvents (st : ExchangeState) : List SessionEvent → ExchangeState × List Callback
  | [] => (st, [])
  | ev :: evs =>
      ((runEvents (step st ev).1 evs).1,
        (step st ev).2 ++ (runEvents (step st ev).1 evs).2)

/-- Recognize the success terminal callback. -/
def isCompleteCb : Callback → Bool
  | .onComplete _ => true
  | _ => false

/-- Recognize the failure terminal callback. -/
def isErrorCb : Callback → Bool
  | .onError _ => true
  | _ => false

/-- Number of `onComplete` invocations in a trace. -/
def countC (t : List Callback) : Nat := t.countP isCompleteCb

/-- Number of `onError` invocations in a trace. -/
def countE (t : List Callback) : Nat := t.countP isErrorCb

theorem countC_nil : countC [] = 0 := rfl

theorem countE_nil : countE [] = 0 := rfl

theorem countC_append (t₁ t₂ : List Callback) :
    countC (t₁ ++ t₂) = countC t₁ + countC t₂ := by
  simp [countC, List.countP_append]

theorem countE_append (t₁ t₂ : List Callback) :
    countE (t₁ ++ t₂) = countE t₁ + countE t₂ := by
  simp [countE, List.countP_append]

theorem countC_map_onDelta (l : List String) :
    countC (l.map Callback.onDelta) = 0 := by
  induction l with
  | nil => rfl
  | cons x xs ih => simp [countC, isCompleteCb, List.countP_cons] at *

theorem countE_map_onDelta (l : List String) :
    countE (l.map Callback.onDelta) = 0 := by
  induction l with
  | nil => rfl
  | cons x xs ih => simp [countE, isErrorCb, List.countP_cons] at *

theorem countC_singleton_complete (c : String) :
    countC [Callback.onComplete c] = 1 := rfl

theorem countC_pos_of_mem {t : List Callback} {c : String}
    (h : Callback.onComplete c ∈ t) : 1 ≤ countC t := by
  have : 0 < t.countP isCompleteCb :=
    List.countP_pos_iff.mpr ⟨_, h, rfl⟩
  simpa [countC] using this

theorem not_mem_of_countC_eq_zero {t : List Callback} (h : countC t = 0)
    (c : String) : Callback.onComplete c ∉ t := by
  intro hmem
  have := countC_pos_of_mem hmem
  omega

theorem step_completed_mono (st : ExchangeState) (ev : SessionEvent)
    (h : st.completed = true) : (step st ev).1.completed = true := by
  cases ev <;> simp only [step, finalize, cleanup] <;> split_ifs <;>
    simp_all

theorem step_countC_of_completed (st : ExchangeState) (ev : SessionEvent)
    (h : st.completed = true) : countC (step st ev).2 = 0 := by
  cases ev <;> simp only [step, finalize, cleanup] <;> split_ifs <;>
    simp_all [countC, isCompleteCb, List.countP_cons, countC_append,
      countC_map_onDelta, List.countP_append, List.countP_map]

set_option maxHeartbeats 1000000 in
theorem step_countC_of_not_completed (st : ExchangeState) (ev : SessionEvent)
    (h : st.completed = false) :
    countC (step st ev).2 = if (step st ev).1.completed then 1 else 0 := by
  cases ev <;> simp only [step, finalize, cleanup] <;> split_ifs <;>
    simp_all [countC, isCompleteCb, List.countP_cons, List.countP_append,
      List.countP_map]

theorem step_listeners_mono (st : ExchangeState) (ev : SessionEvent)
    (h : st.listenersAttached = false) :
    (step st ev).1.listenersAttached = false := by
  cases ev <;> simp only [step, finalize, cleanup] <;> split_ifs <;>
    simp_all

theorem step_armed_mono (st : ExchangeState) (ev : SessionEvent)
    (h : st.timeoutArmed = false) :
    (step st ev).1.timeoutArmed = false := by
  cases ev <;> simp only [step, finalize, cleanup] <;> split_ifs <;>
    simp_all

theorem step_silent (st : ExchangeState) (ev : SessionEvent)
    (hl : st.listenersAttached = false) (ha : st.timeoutArmed = false) :
    (step st ev).2 = [] := by
  cases ev <;> simp only [step, finalize, cleanup] <;> split_ifs <;>
    simp_all

theorem countP_isErrorCb_comp_onDelta (l : List String) :
    List.countP (isErrorCb ∘ Callback.onDelta) l = 0 := by
  induction l with
  | nil => rfl
  | cons x xs ih => simp [isErrorCb, List.countP_cons, Function.comp, ih]

theorem countP_isCompleteCb_comp_onDelta (l : List String) :
    List.countP (isCompleteCb ∘ Callback.onDelta) l = 0 := by
  induction l with
  | nil => rfl
  | cons x xs ih => simp [isCompleteCb, List.countP_cons, Function.comp, ih]

/-- Reachable-state invariant: once `cleanup()` has run
(`cleanupCalled`), the timeout is cleared and the listeners are
detached. -/
def WfCleanup (st : ExchangeState) : Prop :=
  st.cleanupCalled = true →
    st.listenersAttached = false ∧ st.timeoutArmed = false

theorem step_wfCleanup (st : ExchangeState) (ev : SessionEvent)
    (h : WfCleanup st) : WfCleanup (step st ev).1 := by
  cases ev <;> simp only [step, finalize, cleanup, WfCleanup] at h ⊢ <;>
    split_ifs <;> simp_all

set_option maxHeartbeats 1000000 in
theorem step_countE_le_one (st : ExchangeState) (ev : SessionEvent) :
    countE (step st ev).2 ≤ 1 := by
  cases ev <;> simp only [step, finalize, cleanup] <;> split_ifs <;>
    simp_all [countE, isErrorCb, List.countP_cons, List.countP_append,
      List.countP_map, countP_isErrorCb_comp_onDelta]

set_option maxHeartbeats 1000000 in
theorem step_countE_flags (st : ExchangeState) (ev : SessionEvent)
    (hwf : WfCleanup st) (h : 1 ≤ countE (step st ev).2) :
    (step st ev).1.listenersAttached = false ∧
      (step st ev).1.timeoutArmed = false := by
  cases ev <;> simp only [step, finalize, cleanup, WfCleanup] at hwf h ⊢ <;>
    split_ifs at h ⊢ <;>
    simp_all [countE, isErrorCb, List.countP_cons, List.countP_append,
      List.countP_map, countP_isErrorCb_comp_onDelta]

set_option maxHeartbeats 1000000 in
theorem step_countE_not_sessionError (st : ExchangeState) (ev : SessionEvent)
    (hev : ∀ msg, ev ≠ SessionEvent.sessionError msg)
    (h : 1 ≤ countE (step st ev).2) :
    st.completed = false ∧ (step st ev).1.completed = false := by
  cases ev <;> simp only [step, finalize, cleanup] at h ⊢ <;>
    split_ifs at h ⊢ <;>
    simp_all [countE, isErrorCb, List.countP_cons, List.countP_append,
      List.countP_map, countP_isErrorCb_comp_onDelta]

set_option maxHeartbeats 1000000 in
theorem step_terminal_le_one (st : ExchangeState) (ev : SessionEvent) :
    countC (step st ev).2 + countE (step st ev).2 ≤ 1 := by
  cases ev <;> simp only [step, finalize, cleanup] <;> split_ifs <;>
    simp_all [countC, countE, isCompleteCb, isErrorCb, List.countP_cons,
      List.countP_append, List.countP_map, countP_isErrorCb_comp_onDelta,
      countP_isCompleteCb_comp_onDelta]

set_option maxHeartbeats 1000000 in
theorem step_cache_of_no_complete (st : ExchangeState) (ev : SessionEvent)
    (h : ∀ c, Callback.onComplete c ∉ (step st ev).2) :
    (step st ev).1.cache = st.cache := by
  cases ev <;> simp only [step, finalize, cleanup] at h ⊢ <;>
    split_ifs at h ⊢ <;> simp_all

set_option maxHeartbeats 1000000 in
theorem step_cache_of_complete (st : ExchangeState) (ev : SessionEvent)
    (c : String) (h : Callback.onComplete c ∈ (step st ev).2) :
    st.completed = false ∧
      (step st ev).1.cache =
        (if 0 < (jsTrim c).length then
          addMessageToCache st.cache "assistant" c
        else st.cache) := by
  cases ev <;> simp only [step, finalize, cleanup] at h ⊢ <;>
    split_ifs at h ⊢ <;> simp_all

set_option maxHeartbeats 1000000 in
theorem step_cleanupScheduled (st : ExchangeState) (ev : SessionEvent)
    (h : st.cleanupScheduled = true → st.completed = true)
    (h2 : (step st ev).1.cleanupScheduled = true) :
    (step st ev).1.completed = true := by
  cases ev <;> simp only [step, finalize, cleanup] at h2 ⊢ <;>
    split_ifs at h2 ⊢ <;> simp_all

set_option maxHeartbeats 1000000 in
theorem step_timeout_emits (st : ExchangeState)
    (ha : st.timeoutArmed = true) (hc : st.completed = false) :
    1 ≤ countC (step st SessionEvent.timeout).2 +
      countE (step st SessionEvent.timeout).2 := by
  simp only [step, finalize, cleanup]
  split_ifs <;>
    simp_all [countC, countE, isCompleteCb, isErrorCb, List.countP_cons]

/-- Fold an invariant `P` over a run, guarded by a per-event condition
`G`. -/
theorem runEvents_inv (G : SessionEvent → Prop)
    (P : ExchangeState → List Callback → Prop)
    (hstep : ∀ st t ev, G ev → P st t → P (step st ev).1 (t ++ (step st ev).2))
    (evs : List SessionEvent) :
    ∀ st t, (∀ ev ∈ evs, G ev) → P st t →
      P (runEvents st evs).1 (t ++ (runEvents st evs).2) := by
  induction evs with
  | nil =>
      intro st t _ hP
      simpa [runEvents] using hP
  | cons ev evs ih =>
      intro st t hG hP
      simp only [runEvents]
      rw [← List.append_assoc]
      exact ih (step st ev).1 (t ++ (step st ev).2)
        (fun e he => hG e (List.mem_cons_of_mem ev he))
        (hstep st t ev (hG ev (List.mem_cons_self ev evs)) hP)

set_option maxHeartbeats 1000000 in
theorem step_armed_or_emits (st : ExchangeState) (ev : SessionEvent)
    (ha : st.timeoutArmed = true) (hs : st.cleanupScheduled = false)
    (hc : st.completed = false) :
    (step st ev).1.timeoutArmed = true ∨
      1 ≤ countC (step st ev).2 + countE (step st ev).2 := by
  cases ev <;> simp only [step, finalize, cleanup] <;> split_ifs <;>
    simp_all [countC, countE, isCompleteCb, isErrorCb, List.countP_cons,
      List.countP_append, List.countP_map, countP_isErrorCb_comp_onDelta,
      countP_isCompleteCb_comp_onDelta]

/-- The reachable-state invariant of one exchange, tying the state to
the trace emitted so far: `cleanup` leaves no listener attached, the
`completed` latch has fired exactly as many `onComplete`s as it is set,
an `onError` always detaches the listeners and clears the timer, the
deferred cleanup is only ever scheduled by a completion, and until a
terminal callback has fired the timeout stays armed. -/
def ExchangeInv (st : ExchangeState) (t : List Callback) : Prop :=
  WfCleanup st ∧
  countC t = (if st.completed = true then 1 else 0) ∧
  (countE t = 0 ∨ (st.listenersAttached = false ∧ st.timeoutArmed = false)) ∧
  countE t ≤ 1 ∧
  (st.cleanupScheduled = true → st.completed = true) ∧
  (1 ≤ countC t + countE t ∨ st.timeoutArmed = true)

theorem exchangeInv_init (cache0 : List CacheEntry) (prompt : String) :
    ExchangeInv (initState cache0 prompt) [] := by
  refine ⟨?_, ?_, ?_, ?_, ?_, ?_⟩ <;> simp [WfCleanup, initState, countC, countE]

theorem step_exchangeInv (st : ExchangeState) (t : List Callback)
    (ev : SessionEvent) (h : ExchangeInv st t) :
    ExchangeInv (step st ev).1 (t ++ (step st ev).2) := by
  obtain ⟨hwf, hC, hE, hE1, hS, hT⟩ := h
  have hwf' := step_wfCleanup st ev hwf
  refine ⟨hwf', ?_, ?_, ?_, ?_, ?_⟩
  · -- countC bookkeeping
    rw [countC_append]
    by_cases hc : st.completed = true
    · have h1 := step_countC_of_completed st ev hc
      have h2 := step_completed_mono st ev hc
      rw [hC, h1, h2]
      simp [hc]
    · have hcf : st.completed = false := by
        cases hcc : st.completed
        · rfl
        · exact absurd hcc hc
      have h1 := step_countC_of_not_completed st ev hcf
      rw [hC, h1]
      simp [hcf]
  · -- an onError leaves listeners detached and the timer cleared
    rcases hE with hE | hE
    · by_cases ho : countE (step st ev).2 = 0
      · left
        rw [countE_append, hE, ho]
      · right
        exact step_countE_flags st ev hwf (by omega)
    · right
      exact ⟨step_listeners_mono st ev hE.1, step_armed_mono st ev hE.2⟩
  · -- at most one onError ever
    rcases hE with hE | hE
    · rw [countE_append, hE]
      simpa using step_countE_le_one st ev
    · rw [countE_append, step_silent st ev hE.1 hE.2]
      simpa using hE1
  · -- deferred cleanup only scheduled by a completion
    exact step_cleanupScheduled st ev hS
  · -- terminal emitted or timeout still armed
    rcases hT with hT | hT
    · left
      rw [countC_append, countE_append]
      omega
    · by_cases hterm : 1 ≤ countC t + countE t
      · left
        rw [countC_append, countE_append]
        omega
      · have hc0 : countC t = 0 := by omega
        have hcf : st.completed = false := by
          by_contra hcc
          simp only [Bool.not_eq_false] at hcc
          rw [hC] at hc0
          simp [hcc] at hc0
        have hs0 : st.cleanupScheduled = false := by
          by_contra hss
          simp only [Bool.not_eq_false] at hss
          have := hS hss
          rw [this] at hcf
          exact absurd hcf (by simp)
        rcases step_armed_or_emits st ev hT hs0 hcf with h2 | h2
        · right; exact h2
        · left
          rw [countC_append, countE_append]
          omega

theorem run_exchangeInv (cache0 : List CacheEntry) (prompt : String)
    (evs : List SessionEvent) :
    ExchangeInv (runEvents (initState cache0 prompt) evs).1
      (runEvents (initState cache0 prompt) evs).2 := by
  have := runEvents_inv (fun _ => True) ExchangeInv
    (fun st t ev _ h => step_exchangeInv st t ev h) evs
    (initState cache0 prompt) [] (fun _ _ => trivial)
    (exchangeInv_init cache0 prompt)
  simpa using this

/-- With no `session.error` event, at most one terminal callback fires
in total. -/
def ExchangeInvNE (st : ExchangeState) (t : List Callback) : Prop :=
  ExchangeInv st t ∧ countC t + countE t ≤ 1

theorem step_exchangeInvNE (st : ExchangeState) (t : List Callback)
    (ev : SessionEvent) (hev : ∀ msg, ev ≠ SessionEvent.sessionError msg)
    (h : ExchangeInvNE st t) :
    ExchangeInvNE (step st ev).1 (t ++ (step st ev).2) := by
  obtain ⟨hinv, hle⟩ := h
  refine ⟨step_exchangeInv st t ev hinv, ?_⟩
  obtain ⟨hwf, hC, hE, hE1, hS, hT⟩ := hinv
  rw [countC_append, countE_append]
  by_cases h0 : countC t + countE t = 0
  · have := step_terminal_le_one st ev
    omega
  · -- exactly one terminal so far; show the step emits none
    have h1 : countC t + countE t = 1 := by omega
    by_cases hEt : countE t = 0
    · -- the terminal was an onComplete, so the latch is set
      have hCt : countC t = 1 := by omega
      have hc : st.completed = true := by
        by_contra hcc
        simp only [Bool.not_eq_true] at hcc
        rw [hC] at hCt
        simp [hcc] at hCt
      have hoc := step_countC_of_completed st ev hc
      have hoe : countE (step st ev).2 = 0 := by
        by_contra hne
        have h2 := step_countE_not_sessionError st ev hev (by omega)
        rw [hc] at h2
        exact absurd h2.1 (by simp)
      omega
    · -- the terminal was an onError, so everything is detached
      have hfl : st.listenersAttached = false ∧ st.timeoutArmed = false := by
        rcases hE with hE | hE
        · exact absurd hE hEt
        · exact hE
      rw [step_silent st ev hfl.1 hfl.2]
      simp only [countC_nil, countE_nil]
      omega

theorem run_exchangeInvNE (cache0 : List CacheEntry) (prompt : String)
    (evs : List SessionEvent)
    (hne : ∀ msg, SessionEvent.sessionError msg ∉ evs) :
    countC (runEvents (initState cache0 prompt) evs).2 +
      countE (runEvents (initState cache0 prompt) evs).2 ≤ 1 := by
  have := runEvents_inv (fun ev => ∀ msg, ev ≠ SessionEvent.sessionError msg)
    ExchangeInvNE
    (fun st t ev hg h => step_exchangeInvNE st t ev hg h) evs
    (initState cache0 prompt) []
    (fun ev hmem msg hmsg => hne msg (hmsg ▸ hmem))
    ⟨exchangeInv_init cache0 prompt, by simp [countC, countE]⟩
  simpa using this.2

theorem run_timeout_emits (evs : List SessionEvent) :
    ∀ (st : ExchangeState) (t : List Callback), ExchangeInv st t →
      SessionEvent.timeout ∈ evs →
      1 ≤ countC (t ++ (runEvents st evs).2) +
        countE (t ++ (runEvents st evs).2) := by
  induction evs with
  | nil => intro st t _ hmem; simp at hmem
  | cons ev evs ih =>
      intro st t hinv hmem
      simp only [runEvents]
      rw [← List.append_assoc]
      by_cases hterm : 1 ≤ countC (t ++ (step st ev).2) +
          countE (t ++ (step st ev).2)
      · rw [countC_append, countE_append]
        omega
      · rcases List.mem_cons.mp hmem with hev | hev
        · -- the timeout fires now and must emit a terminal
          exfalso
          obtain ⟨hwf, hC, hE, hE1, hS, hT⟩ := hinv
          rw [countC_append, countE_append] at hterm
          have hc0 : countC t = 0 ∧ countE t = 0 ∧
              countC (step st ev).2 = 0 ∧ countE (step st ev).2 = 0 := by
            omega
          have hcf : st.completed = false := by
            by_contra hcc
            simp only [Bool.not_eq_false] at hcc
            have := hC
            rw [hcc] at this
            simp at this
            omega
          have harm : st.timeoutArmed = true := by
            rcases hT with hT | hT
            · omega
            · exact hT
          subst hev
          have := step_timeout_emits st harm hcf
          omega
        · exact ih (step st ev).1 (t ++ (step st ev).2)
            (step_exchangeInv st t ev hinv) hev

/-- C1 counterexample: the claim "never both and never more than one
terminal signal" fails.  After a `session.idle` completion, the
listeners stay attached for the 100 ms grace delay, and the
`session.error` handler has no `completed` guard: the event sequence
`[session.idle, session.error "boom"]` makes the caller receive BOTH an
`onComplete` and an `onError`. -/
theorem c1_counterexample :
    (runEvents (initState [] "hello")
        [SessionEvent.sessionIdle, SessionEvent.sessionError "boom"]).2 =
      [Callback.onComplete "", Callback.onError "boom"] ∧
    countC (runEvents (initState [] "hello")
        [SessionEvent.sessionIdle, SessionEvent.sessionError "boom"]).2 = 1 ∧
    countE (runEvents (initState [] "hello")
        [SessionEvent.sessionIdle, SessionEvent.sessionError "boom"]).2 = 1 := by
  refine ⟨?_, ?_, ?_⟩ <;> decide

/-- C1 (amended): for every exchange, at most one `onComplete` fires
(the `completed` latch) and at most one `onError` fires; when no
`session.error` event is delivered during the exchange, at most one
terminal signal fires in total; and once the 5-minute timer fires, at
least one terminal signal has fired.  (A `session.error` event arriving
after completion but before the grace-delayed listener detachment can
add an `onError` after the `onComplete`; that is the only way to
receive two terminal signals.) -/
theorem c1_terminal_signal_amended (cache0 : List CacheEntry)
    (prompt : String) (evs : List SessionEvent) :
    countC (runEvents (initState cache0 prompt) evs).2 ≤ 1 ∧
    countE (runEvents (initState cache0 prompt) evs).2 ≤ 1 ∧
    ((∀ msg, SessionEvent.sessionError msg ∉ evs) →
      countC (runEvents (initState cache0 prompt) evs).2 +
        countE (runEvents (initState cache0 prompt) evs).2 ≤ 1) ∧
    (SessionEvent.timeout ∈ evs →
      1 ≤ countC (runEvents (initState cache0 prompt) evs).2 +
        countE (runEvents (initState cache0 prompt) evs).2) := by
  obtain ⟨hwf, hC, hE, hE1, hS, hT⟩ := run_exchangeInv cache0 prompt evs
  refine ⟨?_, hE1, ?_, ?_⟩
  · rw [hC]
    split <;> omega
  · exact run_exchangeInvNE cache0 prompt evs
  · intro hmem
    have := run_timeout_emits evs (initState cache0 prompt) []
      (exchangeInv_init cache0 prompt) hmem
    simpa using this

/-- C1 witness: instantiating the amended claim on the concrete run
`[timeout]`, whose hypotheses are dischargeable. -/
theorem c1_terminal_signal_witness :
    countC (runEvents (initState [] "q") [SessionEvent.timeout]).2 +
      countE (runEvents (initState [] "q") [SessionEvent.timeout]).2 ≤ 1 ∧
    1 ≤ countC (runEvents (initState [] "q") [SessionEvent.timeout]).2 +
      countE (runEvents (initState [] "q") [SessionEvent.timeout]).2 :=
  ⟨(c1_terminal_signal_amended [] "q" [SessionEvent.timeout]).2.2.1
      (by intro msg h; simp at h),
    (c1_terminal_signal_amended [] "q" [SessionEvent.timeout]).2.2.2
      (by simp)⟩

/-- C2: the message-history cache never exceeds `N = 100` entries under
any sequence of appends; an append within the bound is a plain push; an
append that would exceed the bound removes exactly the oldest
`count - N` entries in a single trim, so the result is a suffix of the
pushed list (chronological order kept, no entry's content altered); in
particular appending a 101st entry to a 100-entry cache drops exactly
the single oldest entry and leaves length 100. -/
theorem c2_cache_bound (msgs : List CacheEntry) (role content : String)
    (appends : List (String × String)) :
    (addMessageToCache msgs role content).length ≤ MAX_MESSAGES_PER_SESSION ∧
    (appends.foldl (fun m rc => addMessageToCache m rc.1 rc.2) []).length ≤
      MAX_MESSAGES_PER_SESSION ∧
    (msgs.length + 1 ≤ MAX_MESSAGES_PER_SESSION →
      addMessageToCache msgs role content =
        msgs ++ [(⟨role, content⟩ : CacheEntry)]) ∧
    (msgs.length + 1 > MAX_MESSAGES_PER_SESSION →
      addMessageToCache msgs role content =
        (msgs ++ [(⟨role, content⟩ : CacheEntry)]).drop
          (msgs.length + 1 - MAX_MESSAGES_PER_SESSION)) ∧
    (msgs.length = MAX_MESSAGES_PER_SESSION →
      addMessageToCache msgs role content =
        msgs.drop 1 ++ [(⟨role, content⟩ : CacheEntry)] ∧
      (addMessageToCache msgs role content).length =
        MAX_MESSAGES_PER_SESSION) := by
  refine ⟨addMessageToCache_length_le msgs role content, ?_, ?_, ?_, ?_⟩
  · rcases appends with _ | ⟨rc, rest⟩
    · simp
    · -- after at least one append the bound is a step-local fact
      suffices hgen : ∀ (l : List (String × String)) (m : List CacheEntry),
          m.length ≤ MAX_MESSAGES_PER_SESSION →
          (l.foldl (fun m rc => addMessageToCache m rc.1 rc.2) m).length ≤
            MAX_MESSAGES_PER_SESSION by
        exact hgen (rc :: rest) [] (by simp)
      intro l
      induction l with
      | nil => intro m hm; simpa using hm
      | cons x xs ih =>
          intro m _
          exact ih (addMessageToCache m x.1 x.2)
            (addMessageToCache_length_le m x.1 x.2)
  · exact addMessageToCache_eq_append msgs role content
  · exact addMessageToCache_eq_drop msgs role content
  · intro h100
    constructor
    · rw [addMessageToCache_eq_drop msgs role content (by omega)]
      rw [h100]
      have h1 : MAX_MESSAGES_PER_SESSION + 1 - MAX_MESSAGES_PER_SESSION = 1 := by
        simp
      rw [h1]
      rw [List.drop_append_of_le_length (by simp [h100])]
    · rw [addMessageToCache_eq_drop msgs role content (by omega), h100]
      simp [h100]

/-- C2 witness: appending a 101st entry to a concrete 100-entry cache
keeps length 100 and drops exactly the oldest entry. -/
theorem c2_cache_bound_witness :
    addMessageToCache (List.replicate 100 (⟨"user", "x"⟩ : CacheEntry)) "assistant" "y" =
      (List.replicate 100 (⟨"user", "x"⟩ : CacheEntry)).drop 1 ++
        [(⟨"assistant", "y"⟩ : CacheEntry)] ∧
    (addMessageToCache (List.replicate 100 (⟨"user", "x"⟩ : CacheEntry))
        "assistant" "y").length = MAX_MESSAGES_PER_SESSION :=
  (c2_cache_bound (List.replicate 100 (⟨"user", "x"⟩ : CacheEntry))
      "assistant" "y" []).2.2.2.2 (by simp)

/-- The spec's formula for the pending counter, named per its words:
"the number of starts minus the number of terminal events for ids that
were started, floored at 0".  This is the CLAIM's predicted value, kept
separate from the code model so the two can be compared. -/
def specPendingCount (evs : List SessionEvent) : Int :=
  max 0
    ((evs.filterMap fun ev =>
        match ev with
        | SessionEvent.toolStart id _ => some id
        | _ => none).length -
      ((evs.filter fun ev =>
        match ev with
        | SessionEvent.toolComplete id =>
            (evs.filterMap fun e =>
              match e with
              | SessionEvent.toolStart sid _ => some sid
              | _ => none).contains id
        | SessionEvent.toolError id =>
            (evs.filterMap fun e =>
              match e with
              | SessionEvent.toolStart sid _ => some sid
              | _ => none).contains id
        | _ => false).length : Int))

/-- What the handlers actually compute: a left fold where every
`tool.execution_start` increments and every terminal event decrements
with `Math.max(0, n - 1)` — whether or not its `toolCallId` was ever
started. -/
def foldPending : Int → List SessionEvent → Int
  | p, [] => p
  | p, SessionEvent.toolStart _ _ :: evs => foldPending (p + 1) evs
  | p, SessionEvent.toolComplete _ :: evs => foldPending (max 0 (p - 1)) evs
  | p, SessionEvent.toolError _ :: evs => foldPending (max 0 (p - 1)) evs
  | p, _ :: evs => foldPending p evs

/-- Only tool-lifecycle events. -/
def isToolEvent : SessionEvent → Bool
  | SessionEvent.toolStart _ _ => true
  | SessionEvent.toolComplete _ => true
  | SessionEvent.toolError _ => true
  | _ => false

/-- C3 counterexample: for the malformed sequence "start a, then
complete for the never-started b", the claim's formula predicts a
pending count of 1 (the terminal event is for an id that was NOT
started, so it is not subtracted), but the handlers decrement
unconditionally: the code's counter is 0. -/
theorem c3_counterexample :
    specPendingCount
        [SessionEvent.toolStart "a" "t", SessionEvent.toolComplete "b"] = 1 ∧
    (runEvents (initState [] "p")
        [SessionEvent.toolStart "a" "t",
          SessionEvent.toolComplete "b"]).1.pendingToolCalls = 0 := by
  refine ⟨?_, ?_⟩ <;> decide

theorem foldPending_nonneg (evs : List SessionEvent) :
    ∀ p : Int, 0 ≤ p → 0 ≤ foldPending p evs := by
  induction evs with
  | nil => intro p hp; simpa [foldPending] using hp
  | cons ev evs ih =>
      intro p hp
      cases ev <;> simp only [foldPending] <;> exact ih _ (by omega)

theorem run_toolEvents (evs : List SessionEvent) :
    ∀ st : ExchangeState, st.listenersAttached = true →
      (∀ ev ∈ evs, isToolEvent ev = true) →
      (runEvents st evs).1.pendingToolCalls =
        foldPending st.pendingToolCalls evs := by
  induction evs with
  | nil => intro st _ _; simp [runEvents, foldPending]
  | cons ev evs ih =>
      intro st hl hall
      have hev : isToolEvent ev = true := hall ev (List.mem_cons_self ev evs)
      have hrest : ∀ e ∈ evs, isToolEvent e = true :=
        fun e he => hall e (List.mem_cons_of_mem ev he)
      cases ev
      case toolStart id name =>
        simp only [runEvents, step, hl, if_true, foldPending]
        exact ih _ (by simp [hl]) hrest
      case toolComplete id =>
        simp only [runEvents, step, hl, if_true, foldPending]
        exact ih _ (by simp [hl]) hrest
      case toolError id =>
        simp only [runEvents, step, hl, if_true, foldPending]
        exact ih _ (by simp [hl]) hrest
      all_goals exact absurd hev (by simp [isToolEvent])

/-- C3 (amended): the pending-tool-call counter is the left fold in
which every `tool.execution_start` increments and every
`tool.execution_complete`/`tool.execution_error` decrements clamped at
zero — REGARDLESS of whether its `toolCallId` was ever started (an
unmatched terminal event still decrements, which is where the original
formula "starts minus terminals for started ids" diverges).  The
counter never goes negative, and a terminal event for an unknown
`toolCallId` never throws: it is forwarded with the raw id standing in
for the display name. -/
theorem c3_pending_count_amended (cache0 : List CacheEntry)
    (prompt : String) (evs : List SessionEvent)
    (h : ∀ ev ∈ evs, isToolEvent ev = true) :
    (runEvents (initState cache0 prompt) evs).1.pendingToolCalls =
      foldPending 0 evs ∧
    0 ≤ (runEvents (initState cache0 prompt) evs).1.pendingToolCalls ∧
    (∀ (st : ExchangeState) (id : String), st.listenersAttached = true →
      st.toolNameByCallId.lookup id = none →
      (step st (SessionEvent.toolComplete id)).2 =
          [Callback.onToolResult id id false] ∧
        (step st (SessionEvent.toolError id)).2 =
          [Callback.onToolResult id id true]) := by
  have hrun := run_toolEvents evs (initState cache0 prompt) rfl h
  have hrun2 : (runEvents (initState cache0 prompt) evs).1.pendingToolCalls =
      foldPending 0 evs := by
    simpa [initState] using hrun
  refine ⟨hrun2, ?_, ?_⟩
  · rw [hrun2]
    exact foldPending_nonneg evs 0 le_rfl
  · intro st id hl hlook
    constructor <;> simp [step, hl, hlook]

/-- C3 witness: a matched start/complete pair yields the fold's value,
and a terminal event for an unknown id forwards the raw id. -/
theorem c3_pending_count_witness :
    (runEvents (initState [] "p")
        [SessionEvent.toolStart "a" "t",
          SessionEvent.toolComplete "a"]).1.pendingToolCalls =
      foldPending 0
        [SessionEvent.toolStart "a" "t", SessionEvent.toolComplete "a"] ∧
    (step (initState [] "p") (SessionEvent.toolComplete "x")).2 =
      [Callback.onToolResult "x" "x" false] :=
  ⟨(c3_pending_count_amended [] "p"
      [SessionEvent.toolStart "a" "t", SessionEvent.toolComplete "a"]
      (by decide)).1,
    ((c3_pending_count_amended [] "p"
      [SessionEvent.toolStart "a" "t", SessionEvent.toolComplete "a"]
      (by decide)).2.2 (initState [] "p") "x" rfl rfl).1⟩

theorem foldl_append_mk (L : List (List Char)) :
    ∀ acc : List Char,
      List.foldl (fun r s => r ++ s) (⟨acc⟩ : String)
        (L.map fun l => (⟨l⟩ : String)) = ⟨acc ++ L.flatten⟩ := by
  induction L with
  | nil => intro acc; simp
  | cons x xs ih =>
      intro acc
      simp only [List.map_cons, List.foldl_cons, List.flatten_cons]
      have hx : (⟨acc⟩ : String) ++ ⟨x⟩ = ⟨acc ++ x⟩ := rfl
      rw [hx, ih (acc ++ x), List.append_assoc]

theorem join_map_mk (L : List (List Char)) :
    String.join (L.map fun l => (⟨l⟩ : String)) = ⟨L.flatten⟩ := by
  have h := foldl_append_mk L []
  simpa [String.join] using h

/-- C4: if the terminal `assistant.message` event carries non-empty
content while no delta was ever observed and no tool call is pending,
the caller receives the `⌈len/24⌉` synthetic `onDelta` chunks of
`streamFallback` — every chunk but the last of length exactly 24, the
last between 1 and 24 — whose concatenation is the original content,
followed by exactly one `onComplete` carrying that same content. -/
theorem c4_fallback_streaming (st : ExchangeState) (content : String)
    (tr : Option Nat) (hl : st.listenersAttached = true)
    (hc : st.completed = false) (hd : st.hasDelta = false)
    (hp : st.pendingToolCalls = 0) (hne : 0 < content.length) :
    (step st (SessionEvent.assistantMessage content tr)).2 =
      (streamChunks content).map Callback.onDelta ++
        [Callback.onComplete content] ∧
    (streamChunks content).length =
      (content.length + (FALLBACK_CHUNK_SIZE - 1)) / FALLBACK_CHUNK_SIZE ∧
    String.join (streamChunks content) = content ∧
    (∀ ch ∈ streamChunks content,
      0 < ch.length ∧ ch.length ≤ FALLBACK_CHUNK_SIZE) ∧
    (∀ ch ∈ (streamChunks content).dropLast,
      ch.length = FALLBACK_CHUNK_SIZE) := by
  have hne0 : content.length ≠ 0 := by omega
  refine ⟨?_, ?_, ?_, ?_, ?_⟩
  · simp [step, finalize, hl, hp, hd, hc, hne0, hne]
  · rw [streamChunks, List.length_map]
    exact chunksFuel_length content.data.length content.data le_rfl
  · rw [streamChunks, join_map_mk,
      chunksFuel_flatten content.data.length content.data le_rfl]
  · intro ch hch
    rw [streamChunks] at hch
    obtain ⟨l, hl2, hmk⟩ := List.mem_map.mp hch
    have := chunksFuel_mem_length content.data.length content.data le_rfl l hl2
    rw [← hmk]
    exact this
  · intro ch hch
    rw [streamChunks, ← List.map_dropLast] at hch
    obtain ⟨l, hl2, hmk⟩ := List.mem_map.mp hch
    have := chunksFuel_dropLast_length content.data.length content.data
      le_rfl l hl2
    rw [← hmk]
    exact this

/-- C4 witness: a 26-character content yields two chunks (24 + 2) and
one completion. -/
theorem c4_fallback_streaming_witness :
    (step (initState [] "p")
        (SessionEvent.assistantMessage "abcdefghijklmnopqrstuvwxyz" none)).2 =
      (streamChunks "abcdefghijklmnopqrstuvwxyz").map Callback.onDelta ++
        [Callback.onComplete "abcdefghijklmnopqrstuvwxyz"] ∧
    (streamChunks "abcdefghijklmnopqrstuvwxyz").length = 2 ∧
    String.join (streamChunks "abcdefghijklmnopqrstuvwxyz") =
      "abcdefghijklmnopqrstuvwxyz" := by
  have h := c4_fallback_streaming (initState [] "p")
    "abcdefghijklmnopqrstuvwxyz" none rfl rfl rfl rfl (by decide)
  exact ⟨h.1, by rw [h.2.1]; decide, h.2.2.1⟩

/-- C5 counterexample: the parenthetical "any non-empty content it
carries is still captured into the output buffer" fails when the buffer
is already non-empty.  After a delta "Y" and a tool start, a terminal
message carrying "X" (pending count 1 > 0) leaves the buffer at "Y":
the "X" is discarded, not captured. -/
theorem c5_counterexample :
    (runEvents (initState [] "p")
        [SessionEvent.messageDelta "Y", SessionEvent.toolStart "a" "t",
          SessionEvent.assistantMessage "X" none]).1.pendingToolCalls = 1 ∧
    (runEvents (initState [] "p")
        [SessionEvent.messageDelta "Y", SessionEvent.toolStart "a" "t",
          SessionEvent.assistantMessage "X" none]).1.fullContent = "Y" ∧
    countC (runEvents (initState [] "p")
        [SessionEvent.messageDelta "Y", SessionEvent.toolStart "a" "t",
          SessionEvent.assistantMessage "X" none]).2 = 0 := by
  refine ⟨?_, ?_, ?_⟩ <;> decide

/-- C5 (amended): a terminal `assistant.message` with non-empty
`toolRequests` and empty content is ignored outright; while the
pending-tool-call counter is positive it never completes, and its
non-empty content is captured into the output buffer only when the
buffer is still empty (an already-populated buffer is kept); a
`session.idle` while nothing has completed and no tool is pending
completes with whatever buffered content exists — possibly the empty
string. -/
theorem c5_deferred_completion (st : ExchangeState) (content : String)
    (tr : Option Nat) (n : Nat) (hl : st.listenersAttached = true) :
    (0 < n → content.length = 0 →
      step st (SessionEvent.assistantMessage content (some n)) = (st, [])) ∧
    (0 < st.pendingToolCalls →
      (step st (SessionEvent.assistantMessage content tr)).2 = [] ∧
      (step st (SessionEvent.assistantMessage content tr)).1.fullContent =
        (if 0 < content.length ∧ st.fullContent.length = 0 then content
          else st.fullContent) ∧
      (step st (SessionEvent.assistantMessage content tr)).1.completed =
        st.completed) ∧
    (st.completed = false → st.pendingToolCalls = 0 →
      (step st SessionEvent.sessionIdle).2 =
        [Callback.onComplete st.fullContent]) := by
  refine ⟨?_, ?_, ?_⟩
  · intro hn h0
    simp [step, hl, hasToolRequests, hn, h0]
  · intro hp
    by_cases hg : hasToolRequests tr = true ∧ content.length = 0
    · refine ⟨?_, ?_, ?_⟩ <;> simp [step, hl, hg, hg.2]
    · refine ⟨?_, ?_, ?_⟩ <;> simp [step, hl, hg, hp] <;>
        split_ifs <;> simp_all
  · intro hc hp0
    simp [step, finalize, hl, hc, hp0]

/-- C5 witness: concrete instances of the three behaviors. -/
theorem c5_deferred_completion_witness :
    step (initState [] "p") (SessionEvent.assistantMessage "" (some 1)) =
      (initState [] "p", []) ∧
    (step { initState [] "p" with pendingToolCalls := 1 }
        (SessionEvent.assistantMessage "X" none)).2 = [] ∧
    (step (initState [] "p") SessionEvent.sessionIdle).2 =
      [Callback.onComplete ""] :=
  ⟨(c5_deferred_completion (initState [] "p") "" (some 1) 1 rfl).1
      (by decide) (by decide),
    ((c5_deferred_completion { initState [] "p" with pendingToolCalls := 1 }
      "X" none 0 rfl).2.1 (by decide)).1,
    (c5_deferred_completion (initState [] "p") "" none 0 rfl).2.2 rfl rfl⟩

/-- C6: when the 5-minute timer fires before any completion, a
non-empty output buffer finalizes the exchange as a success carrying
the accumulated partial content (no error reaches the caller), while an
empty buffer fails the exchange with the distinct timeout error via
`onError`; the timer is spent by firing and is cleared by the cleanup
that the first successful finalize schedules, and a timer callback
running after completion emits nothing to the caller. -/
theorem c6_timeout_race (st : ExchangeState) (hwf : WfCleanup st)
    (ha : st.timeoutArmed = true) :
    (st.completed = false → 0 < st.fullContent.length →
      (step st SessionEvent.timeout).2 =
          [Callback.onComplete st.fullContent] ∧
        countE (step st SessionEvent.timeout).2 = 0) ∧
    (st.completed = false → st.fullContent.length = 0 →
      (step st SessionEvent.timeout).2 = [Callback.onError TIMEOUT_ERROR]) ∧
    (st.completed = true → (step st SessionEvent.timeout).2 = []) ∧
    (step st SessionEvent.timeout).1.timeoutArmed = false ∧
    (st.cleanupScheduled = true →
      (step st SessionEvent.graceTimer).1.timeoutArmed = false) := by
  have hcc : st.cleanupCalled = false := by
    cases h : st.cleanupCalled
    · rfl
    · have := (hwf h).2
      rw [this] at ha
      exact absurd ha (by simp)
  refine ⟨?_, ?_, ?_, ?_, ?_⟩
  · intro hc hfc
    constructor
    · simp [step, finalize, ha, hc, hfc]
    · simp [step, finalize, ha, hc, hfc, countE, isErrorCb]
  · intro hc hfc
    simp [step, finalize, cleanup, ha, hc, hfc, hcc]
  · intro hc
    simp [step, ha, hc]
  · by_cases hc : st.completed = true
    · simp [step, ha, hc]
    · have hcf : st.completed = false := by
        cases hccc : st.completed
        · rfl
        · exact absurd hccc hc
      by_cases hfc : 0 < st.fullContent.length
      · simp [step, finalize, ha, hcf, hfc]
      · simp [step, finalize, cleanup, ha, hcf, hfc, hcc]
  · intro hs
    simp [step, cleanup, hs, hcc]

/-- C6 witness: concrete instances of the three timer outcomes and of
the grace-delayed disarm. -/
theorem c6_timeout_race_witness :
    (step { initState [] "p" with fullContent := "hi" }
        SessionEvent.timeout).2 = [Callback.onComplete "hi"] ∧
    (step (initState [] "p") SessionEvent.timeout).2 =
      [Callback.onError TIMEOUT_ERROR] ∧
    (step { initState [] "p" with completed := true }
        SessionEvent.timeout).2 = [] ∧
    (step { initState [] "p" with cleanupScheduled := true }
        SessionEvent.graceTimer).1.timeoutArmed = false :=
  ⟨((c6_timeout_race { initState [] "p" with fullContent := "hi" }
      (by intro h; simp [initState] at h) rfl).1 rfl (by decide)).1,
    (c6_timeout_race (initState [] "p")
      (by intro h; simp [initState] at h) rfl).2.1 rfl rfl,
    (c6_timeout_race { initState [] "p" with completed := true }
      (by intro h; simp [initState] at h) rfl).2.2.1 rfl,
    (c6_timeout_race { initState [] "p" with cleanupScheduled := true }
      (by intro h; simp [initState] at h) rfl).2.2.2.2 rfl⟩

/-! ## The user-input request hook and the session registry -/

/-- A user-input request forwarded by the runtime (payload opaque to
the fallback path). -/
structure UserInputRequest where
  question : String
deriving DecidableEq, Repr

/-- The answer returned to the runtime:
`{ answer, wasFreeform }`. -/
structure UserInputResponse where
  answer : String
  wasFreeform : Bool
deriving DecidableEq, Repr

/-- The `onUserInputRequest` callback installed by both `createSession`
and `getOrCreateSession`: look up the session's registered handler in
`userInputHandlers`; if present delegate to it, otherwise answer
`{ answer: "", wasFreeform: true }` immediately. -/
def onUserInputRequest
    (userInputHandlers : List (String × (UserInputRequest → UserInputResponse)))
    (sessionId : String) (request : UserInputRequest) : UserInputResponse :=
  match userInputHandlers.lookup sessionId with
  | some handler => handler request
  | none => { answer := "", wasFreeform := true }

/-- C7 counterexample: with no registered responder the fallback answer
is `{ answer: "", wasFreeform: true }` — the answer is empty but it is
marked FREEFORM (`wasFreeform = true`), not non-freeform as claimed. -/
theorem c7_counterexample :
    onUserInputRequest [] "s1" ⟨"q"⟩ =
      { answer := "", wasFreeform := true } ∧
    ¬ (onUserInputRequest [] "s1" ⟨"q"⟩).wasFreeform = false := by
  refine ⟨rfl, ?_⟩
  decide

/-- C7 (amended): a user-input request on a session with no registered
responder resolves immediately (the hook is a total function, never a
hang) with the empty answer marked freeform: `{ answer: "",
wasFreeform: true }`. -/
theorem c7_user_input_fallback_amended
    (handlers : List (String × (UserInputRequest → UserInputResponse)))
    (sessionId : String) (request : UserInputRequest)
    (h : handlers.lookup sessionId = none) :
    onUserInputRequest handlers sessionId request =
      { answer := "", wasFreeform := true } := by
  simp [onUserInputRequest, h]

/-- C7 witness: the amended claim at a concrete empty handler map. -/
theorem c7_user_input_fallback_witness :
    onUserInputRequest [] "s1" ⟨"hello"⟩ =
      { answer := "", wasFreeform := true } :=
  c7_user_input_fallback_amended [] "s1" ⟨"hello"⟩ rfl

/-- The session registry's per-session maps touched by
`deleteSession`: the live handles (`activeSessions`), the
message-history cache (`messageHistoryCache`) and the agent association
(`sessionAgentMap`). -/
structure RegistryState where
  activeSessions : List String
  messageHistoryCache : List (String × List CacheEntry)
  sessionAgentMap : List (String × String)
deriving DecidableEq, Repr

/-- `deleteSession(sessionId)`: if a live handle exists, destroy it —
swallowing any destroy error (`destroyThrows` has no effect) — and drop
it from `activeSessions`; then unconditionally purge the session's
cache entries and agent association; finally call
`client.deleteSession`, whose failure (`clientDeleteThrows`) surfaces
only after every purge has happened. -/
def deleteSession (st : RegistryState) (sessionId : String)
    (destroyThrows clientDeleteThrows : Bool) :
    RegistryState × Option String :=
  let st1 :=
    if st.activeSessions.contains sessionId then
      { st with
          activeSessions :=
            st.activeSessions.filter fun s => s ≠ sessionId }
    else st
  let st2 :=
    { st1 with
        messageHistoryCache :=
          st1.messageHistoryCache.filter fun kv => kv.1 ≠ sessionId
        sessionAgentMap :=
          st1.sessionAgentMap.filter fun kv => kv.1 ≠ sessionId }
  if clientDeleteThrows then
    (st2, some "client.deleteSession failed")
  else
    (st2, none)

theorem lookup_filter_ne {β : Type} (l : List (String × β)) (k : String) :
    (l.filter fun kv => kv.1 ≠ k).lookup k = none := by
  induction l with
  | nil => rfl
  | cons kv rest ih =>
      obtain ⟨k1, v⟩ := kv
      by_cases h : k1 = k
      · rw [List.filter_cons_of_neg (by simp [h])]
        exact ih
      · rw [List.filter_cons_of_pos (by simp [h])]
        have hbeq : (k == k1) = false := beq_eq_false_iff_ne.mpr (Ne.symm h)
        simp [List.lookup, hbeq, ih]
        intro a b _ hak hka
        exact hak hka.symm

/-- C8: `deleteSession` never propagates an error raised by
`session.destroy()` — the outcome and resulting state are identical
whether or not destroy throws — and for every session id it always
purges the cached handle, the session's message-history cache entries
and the session's agent association (all before the final
`client.deleteSession` call, the only step whose failure surfaces). -/
theorem c8_delete_session (st : RegistryState) (sessionId : String)
    (destroyThrows clientDeleteThrows : Bool) :
    sessionId ∉
      (deleteSession st sessionId destroyThrows clientDeleteThrows).1.activeSessions ∧
    (deleteSession st sessionId destroyThrows
        clientDeleteThrows).1.messageHistoryCache.lookup sessionId = none ∧
    (deleteSession st sessionId destroyThrows
        clientDeleteThrows).1.sessionAgentMap.lookup sessionId = none ∧
    deleteSession st sessionId true clientDeleteThrows =
      deleteSession st sessionId false clientDeleteThrows ∧
    (deleteSession st sessionId destroyThrows false).2 = none := by
  refine ⟨?_, ?_, ?_, rfl, ?_⟩
  · by_cases hc : st.activeSessions.contains sessionId
    · simp only [deleteSession, hc, if_true]
      intro hmem
      split at hmem <;>
        simp only [List.mem_filter] at hmem <;>
        simp_all
    · simp only [deleteSession, hc]
      intro hmem
      split at hmem <;> simp_all [List.mem_filter]
  · by_cases hc : st.activeSessions.contains sessionId <;>
      simp [deleteSession, hc, lookup_filter_ne] <;>
      split <;> simp [lookup_filter_ne] <;>
      (intro a b _ hak hka; exact hak hka.symm)
  · by_cases hc : st.activeSessions.contains sessionId <;>
      simp [deleteSession, hc, lookup_filter_ne] <;>
      split <;> simp [lookup_filter_ne] <;>
      (intro a b _ hak hka; exact hak hka.symm)
  · by_cases hc : st.activeSessions.contains sessionId <;>
      simp [deleteSession, hc]

theorem exists_complete_of_countC_pos {t : List Callback}
    (h : 1 ≤ countC t) : ∃ c, Callback.onComplete c ∈ t := by
  have : 0 < t.countP isCompleteCb := by simpa [countC] using h
  obtain ⟨cb, hcb, hp⟩ := List.countP_pos_iff.mp this
  cases cb with
  | onComplete c => exact ⟨c, hcb⟩
  | onDelta c => simp [isCompleteCb] at hp
  | onReasoningDelta c => simp [isCompleteCb] at hp
  | onToolCall a b => simp [isCompleteCb] at hp
  | onToolResult a b e => simp [isCompleteCb] at hp
  | onError c => simp [isCompleteCb] at hp

theorem step_countC_invariant (st : ExchangeState) (t : List Callback)
    (ev : SessionEvent)
    (hC : countC t = if st.completed = true then 1 else 0) :
    countC (t ++ (step st ev).2) =
      if (step st ev).1.completed = true then 1 else 0 := by
  rw [countC_append]
  by_cases hc : st.completed = true
  · have h1 := step_countC_of_completed st ev hc
    have h2 := step_completed_mono st ev hc
    rw [hC, h1, h2]
    simp [hc]
  · have hcf : st.completed = false := by
      cases hcc : st.completed
      · rfl
      · exact absurd hcc hc
    have h1 := step_countC_of_not_completed st ev hcf
    rw [hC, h1]
    simp [hcf]

/-- Run-level invariant for C9: every `onComplete c` whose content has
non-whitespace text is mirrored by an `"assistant"` cache entry. -/
def CacheInv (st : ExchangeState) (t : List Callback) : Prop :=
  countC t = (if st.completed = true then 1 else 0) ∧
  ∀ c, Callback.onComplete c ∈ t → 0 < (jsTrim c).length →
    (⟨"assistant", c⟩ : CacheEntry) ∈ st.cache

theorem step_cacheInv (st : ExchangeState) (t : List Callback)
    (ev : SessionEvent) (h : CacheInv st t) :
    CacheInv (step st ev).1 (t ++ (step st ev).2) := by
  obtain ⟨hC, hA⟩ := h
  refine ⟨step_countC_invariant st t ev hC, ?_⟩
  intro c hmem htrim
  rcases List.mem_append.mp hmem with hmem | hmem
  · -- an earlier completion: the step leaves the cache alone
    have hct : 1 ≤ countC t := countC_pos_of_mem hmem
    have hc : st.completed = true := by
      by_contra hcc
      simp only [Bool.not_eq_true] at hcc
      rw [hC] at hct
      simp [hcc] at hct
    have h0 := step_countC_of_completed st ev hc
    have hnone : ∀ c2, Callback.onComplete c2 ∉ (step st ev).2 :=
      not_mem_of_countC_eq_zero h0
    rw [step_cache_of_no_complete st ev hnone]
    exact hA c hmem htrim
  · -- the completion happens in this step
    obtain ⟨_, hcache⟩ := step_cache_of_complete st ev c hmem
    rw [hcache, if_pos htrim]
    exact mem_addMessageToCache_self st.cache "assistant" c

/-- C9 counterexample: the run `[session.idle]` completes successfully
(the caller receives `onComplete ""`) yet `finalize` records no
assistant turn, because `content.trim().length > 0` fails: the cache
holds only the user prompt. -/
theorem c9_counterexample :
    (runEvents (initState [] "p") [SessionEvent.sessionIdle]).2 =
      [Callback.onComplete ""] ∧
    (runEvents (initState [] "p") [SessionEvent.sessionIdle]).1.cache =
      [⟨"user", "p"⟩] := by
  refine ⟨?_, ?_⟩ <;> decide

/-- C9 (amended): for every exchange that completes successfully with
content whose trimmed text is non-empty, the session's cache contains
an entry with role `"assistant"` and exactly that content; a completion
whose content trims to the empty string (such as an idle-path
completion with an empty buffer) records no assistant turn. -/
theorem c9_assistant_cache_amended (cache0 : List CacheEntry)
    (prompt : String) (evs : List SessionEvent) (c : String)
    (hmem : Callback.onComplete c ∈ (runEvents (initState cache0 prompt) evs).2)
    (htrim : 0 < (jsTrim c).length) :
    (⟨"assistant", c⟩ : CacheEntry) ∈
      (runEvents (initState cache0 prompt) evs).1.cache := by
  have hinv := runEvents_inv (fun _ => True) CacheInv
    (fun st t ev _ h => step_cacheInv st t ev h) evs
    (initState cache0 prompt) [] (fun _ _ => trivial)
    ⟨by simp [countC, initState], by intro c hc; simp at hc⟩
  exact hinv.2 c (by simpa using hmem) htrim

/-- C9 witness: a fallback-streamed completion "hi" lands in the cache
as an assistant entry. -/
theorem c9_assistant_cache_witness :
    (⟨"assistant", "hi"⟩ : CacheEntry) ∈
      (runEvents (initState [] "p")
        [SessionEvent.assistantMessage "hi" none]).1.cache :=
  c9_assistant_cache_amended [] "p" [SessionEvent.assistantMessage "hi" none]
    "hi" (by decide) (by decide)

/-- Run-level invariant for C10: until completion the user-prompt entry
is the cache's last element; afterwards it is still a member (the one
assistant append can only trim entries strictly older than it). -/
def PromptInv (prompt : String) (st : ExchangeState) : Prop :=
  (st.completed = false →
    ∃ l, st.cache = l ++ [(⟨"user", prompt⟩ : CacheEntry)]) ∧
  (st.completed = true → (⟨"user", prompt⟩ : CacheEntry) ∈ st.cache)

theorem step_promptInv (prompt : String) (st : ExchangeState)
    (t : List Callback) (ev : SessionEvent)
    (hC : countC t = (if st.completed = true then 1 else 0))
    (h : PromptInv prompt st) : PromptInv prompt (step st ev).1 := by
  obtain ⟨hpre, hpost⟩ := h
  by_cases hc : st.completed = true
  · -- already completed: no further cache writes
    have h0 := step_countC_of_completed st ev hc
    have hnone : ∀ c2, Callback.onComplete c2 ∉ (step st ev).2 :=
      not_mem_of_countC_eq_zero h0
    have hcache := step_cache_of_no_complete st ev hnone
    have hc2 := step_completed_mono st ev hc
    refine ⟨?_, ?_⟩
    · intro hfalse
      rw [hc2] at hfalse
      exact absurd hfalse (by simp)
    · intro _
      rw [hcache]
      exact hpost hc
  · have hcf : st.completed = false := by
      cases hcc : st.completed
      · rfl
      · exact absurd hcc hc
    obtain ⟨l, hl⟩ := hpre hcf
    by_cases hc2 : (step st ev).1.completed = true
    · -- the step completes: at most one assistant append
      have h1 := step_countC_of_not_completed st ev hcf
      rw [if_pos hc2] at h1
      obtain ⟨c, hcm⟩ :=
        @exists_complete_of_countC_pos (step st ev).2 (by omega)
      obtain ⟨_, hcache⟩ := step_cache_of_complete st ev c hcm
      refine ⟨fun hfalse => absurd hfalse (by simp [hc2]), fun _ => ?_⟩
      rw [hcache]
      split
      · rw [hl]
        exact mem_addMessageToCache_of_last l _ "assistant" c
      · rw [hl]
        simp
    · -- no completion: cache untouched
      have hcf2 : (step st ev).1.completed = false := by
        cases hcc : (step st ev).1.completed
        · rfl
        · exact absurd hcc hc2
      have h1 := step_countC_of_not_completed st ev hcf
      rw [hcf2] at h1
      simp only [Bool.false_eq_true, if_false] at h1
      have hnone : ∀ c2, Callback.onComplete c2 ∉ (step st ev).2 :=
        not_mem_of_countC_eq_zero h1
      have hcache := step_cache_of_no_complete st ev hnone
      refine ⟨fun _ => ⟨l, by rw [hcache, hl]⟩, ?_⟩
      intro htrue
      exact absurd htrue (by simp [hcf2])

/-- C10: `sendMessage` pushes the user prompt into the message-history
cache as soon as the session resolves — before the runtime send is
issued, hence before any event of the exchange is processed (the run
over zero events already shows the appended prompt) — and that entry is
still in the cache after ANY sequence of events, in particular when the
exchange ends in failure: no error path rolls the cache back. -/
theorem c10_user_prompt_cached (cache0 : List CacheEntry) (prompt : String)
    (evs : List SessionEvent) :
    (runEvents (initState cache0 prompt) []).1.cache =
      addMessageToCache cache0 "user" prompt ∧
    (⟨"user", prompt⟩ : CacheEntry) ∈
      (runEvents (initState cache0 prompt) evs).1.cache := by
  constructor
  · rfl
  · have hinv := runEvents_inv (fun _ => True)
      (fun st t => countC t = (if st.completed = true then 1 else 0) ∧
        PromptInv prompt st)
      (fun st t ev _ h =>
        ⟨step_countC_invariant st t ev h.1, step_promptInv prompt st t ev h.1 h.2⟩)
      evs (initState cache0 prompt) [] (fun _ _ => trivial)
      ⟨by simp [countC, initState],
        ⟨fun _ => addMessageToCache_concat cache0 "user" prompt,
          fun htrue => absurd htrue (by simp [initState])⟩⟩
    rcases hinv.2 with ⟨hpre, hpost⟩
    by_cases hc : (runEvents (initState cache0 prompt) evs).1.completed = true
    · exact hpost hc
    · have hcf : (runEvents (initState cache0 prompt) evs).1.completed = false := by
        cases hcc : (runEvents (initState cache0 prompt) evs).1.completed
        · rfl
        · exact absurd hcc hc
      obtain ⟨l, hl⟩ := hpre hcf
      rw [hl]
      simp
